import Mathlib

/-!
Verification development for the calendar-agent repository's caching and
summarization core (`src/notion_api.py`): the `NotionCache` file-backed
TTL cache, the block flattener (`simplify_block_content` and the loop in
`get_page_content_simplified`), and the bounded summarizer
(`generate_page_summary`).

Modelling conventions:
* Python strings are `List Char` (`Str`); `len` is `List.length`,
  `s1 + s2` is `++`, `sub in s` is `List.IsInfix` (`<:+:`),
  `s.lower()` is `List.map Char.toLower`, `"\n".join` is
  `List.intercalate [nl]`, `s.split('\n')` is `splitNl`.
* Timestamps are `Nat` seconds since the Unix epoch; `datetime.now()`
  becomes an explicit `now` parameter; `timedelta(hours=24)` is
  `ttl = 86400` seconds.
* The per-key cache files under `cache_dir` form a `Store`:
  a map from page id to the file's parse outcome (`none` = no file,
  `CacheFile.malformed` = `json.load` raises, `CacheFile.valid` = the
  decoded `{content, cached_at}` dict, with `cached_at` optional since
  `cached_data.get('cached_at', '2000-01-01')` tolerates its absence).
* Raising Python code is embedded in `Except PyExc`; JSON values are
  `JsonVal`, with Python truthiness as `truthy`.
* The HTTP fetch (`requests.get` + `raise_for_status` + `.json()`) is an
  explicit `fetchFn : Except PyExc JsonVal` argument.
-/

/-- Python strings, embedded as lists of characters. -/
abbrev Str := List Char

/-- The newline character, `'\n'`. -/
def nl : Char := Char.ofNat 10

/-- JSON values as handled by `json.load` / `response.json()`. -/
inductive JsonVal where
  | null : JsonVal
  | bool : Bool → JsonVal
  | num : Int → JsonVal
  | str : Str → JsonVal
  | arr : List JsonVal → JsonVal
  | obj : List (String × JsonVal) → JsonVal

/-- Python truthiness of a JSON value (`if cached_content:` etc.):
`None`, `False`, `0`, `""`, `[]` and `{}` are falsy. -/
def truthy : JsonVal → Bool
  | .null => false
  | .bool b => b
  | .num n => n != 0
  | .str s => !s.isEmpty
  | .arr xs => !xs.isEmpty
  | .obj kvs => !kvs.isEmpty

/-- Python exceptions that the modelled code can raise. -/
inductive PyExc where
  | jsonDecodeError : PyExc
  | httpError : PyExc
deriving DecidableEq

/-- 24 hours (`timedelta(hours=24)`) in seconds. -/
def ttl : Nat := 86400

/-- The default timestamp `'2000-01-01'` used by
`cached_data.get('cached_at', '2000-01-01')`, as Unix seconds. -/
def epoch2000 : Nat := 946684800

/-- Parse outcome of one cache file `<cache_dir>/<page_id>.json`. -/
inductive CacheFile where
  /-- The file exists but `json.load` raises (invalid JSON). -/
  | malformed : CacheFile
  /-- The file decodes to `{'content': content, 'cached_at': cachedAt}`;
  `cachedAt = none` models a dict without the `cached_at` key. -/
  | valid (content : JsonVal) (cachedAt : Option Nat) : CacheFile

/-- The cache directory: one file per page id (the key-to-filename map
`get_cache_path` is `page_id ↦ cache_dir/page_id.json`, injective in the
page id, so the store is keyed by page id directly). -/
abbrev Store := String → Option CacheFile

/-- `NotionCache.get_cached_page`: returns the cached content if the
file exists, decodes, and `now - cached_at < 24h`; `None` otherwise.
`json.load` raising on a malformed file is the `.error` outcome. -/
def get_cached_page (fs : Store) (now : Nat) (page_id : String) :
    Except PyExc (Option JsonVal) :=
  match fs page_id with
  | none => .ok none
  | some .malformed => .error .jsonDecodeError
  | some (.valid content cachedAt) =>
      let last_updated := cachedAt.getD epoch2000
      if now - last_updated < ttl then .ok (some content)
      else .ok none

/-- `NotionCache.update_cache`: overwrite the key's file with
`{'content': content, 'cached_at': datetime.now().isoformat()}`. -/
def update_cache (fs : Store) (now : Nat) (page_id : String)
    (content : JsonVal) : Store :=
  fun k => if k = page_id then some (.valid content (some now)) else fs k

/-- `NotionCache.get_page_content`: on `force_refresh` return `None`
immediately; otherwise return the cached page when it is truthy, else
`None` (signalling the caller to fetch). -/
def get_page_content (fs : Store) (now : Nat) (page_id : String)
    (force_refresh : Bool) : Except PyExc (Option JsonVal) :=
  if !force_refresh then
    match get_cached_page fs now page_id with
    | .error e => .error e
    | .ok (some cached_content) =>
        if truthy cached_content then .ok (some cached_content)
        else .ok none
    | .ok none => .ok none
  else .ok none

/-- `NotionManager.get_page`: the get-or-fetch composite. Returns the
result (or the propagated exception) together with the final store. -/
def get_page (fs : Store) (now : Nat) (page_id : String)
    (force_refresh : Bool) (fetchFn : Except PyExc JsonVal) :
    Except PyExc JsonVal × Store :=
  match get_page_content fs now page_id force_refresh with
  | .error e => (.error e, fs)
  | .ok cached_page =>
    if (cached_page.map truthy).getD false ∧ !force_refresh then
      (.ok (cached_page.getD .null), fs)
    else
      match fetchFn with
      | .error e => (.error e, fs)
      | .ok page_data => (.ok page_data, update_cache fs now page_id page_data)

/-- `NotionManager.get_block_children`: same composite as `get_page`
but keyed by `f"{block_id}_children"`; `fetchFn` stands for
`requests.get(...).json().get('results', [])`, its value the block list
as a JSON value. -/
def get_block_children (fs : Store) (now : Nat) (block_id : String)
    (force_refresh : Bool) (fetchFn : Except PyExc JsonVal) :
    Except PyExc JsonVal × Store :=
  let cache_key := block_id ++ "_children"
  match get_page_content fs now cache_key force_refresh with
  | .error e => (.error e, fs)
  | .ok cached_blocks =>
    if (cached_blocks.map truthy).getD false ∧ !force_refresh then
      (.ok (cached_blocks.getD .null), fs)
    else
      match fetchFn with
      | .error e => (.error e, fs)
      | .ok blocks_data => (.ok blocks_data, update_cache fs now cache_key blocks_data)

/-- One rich-text span; only `plain_text` is consumed
(`text.get('plain_text', '')`, a missing key reading as `""`). -/
structure RichText where
  plain_text : Str

/-- A Notion content block as consumed by `simplify_block_content`:
one constructor per recognized `block['type']`, each carrying its
`rich_text` array, plus `other` for any unrecognized kind tag. -/
inductive Block where
  | paragraph (rich_text : List RichText)
  | heading_1 (rich_text : List RichText)
  | heading_2 (rich_text : List RichText)
  | heading_3 (rich_text : List RichText)
  | bulleted_list_item (rich_text : List RichText)
  | numbered_list_item (rich_text : List RichText)
  | to_do (rich_text : List RichText) (checked : Bool)
  | toggle (rich_text : List RichText)
  | code (rich_text : List RichText) (language : String)
  | other (ty : String)

/-- `NotionManager.extract_plain_text`: concatenate the `plain_text`
of every span (`"".join(...)`); empty input gives `""`. -/
def extract_plain_text (rich_text : List RichText) : Str :=
  (rich_text.map RichText.plain_text).flatten

/-- The simplified record `{'type': ..., 'content': ..., ...}` built by
`simplify_block_content`; `checked` is present only for `to_do` blocks,
`language` only for `code` blocks. -/
structure Simplified where
  type : String
  content : Str
  checked : Option Bool
  language : Option String
deriving DecidableEq

/-- `NotionManager.simplify_block_content`: start from
`{'type': block_type, 'content': ''}` and fill `content` (and the
kind-specific extra field) per recognized type; unrecognized kinds
keep `content = ''`. -/
def simplify_block_content : Block → Simplified
  | .paragraph rt => ⟨"paragraph", extract_plain_text rt, none, none⟩
  | .heading_1 rt => ⟨"heading_1", extract_plain_text rt, none, none⟩
  | .heading_2 rt => ⟨"heading_2", extract_plain_text rt, none, none⟩
  | .heading_3 rt => ⟨"heading_3", extract_plain_text rt, none, none⟩
  | .bulleted_list_item rt => ⟨"bulleted_list_item", extract_plain_text rt, none, none⟩
  | .numbered_list_item rt => ⟨"numbered_list_item", extract_plain_text rt, none, none⟩
  | .to_do rt checked => ⟨"to_do", extract_plain_text rt, some checked, none⟩
  | .toggle rt => ⟨"toggle", extract_plain_text rt, none, none⟩
  | .code rt language => ⟨"code", extract_plain_text rt, none, some language⟩
  | .other ty => ⟨ty, [], none, none⟩

/-- The flattening loop of `NotionManager.get_page_content_simplified`
(lines 277–282): `for i, block in enumerate(blocks): if i >= max_blocks:
break; simplified_blocks.append(self.simplify_block_content(block))`,
i.e. simplify the first `max_blocks` blocks in order. -/
def flatten_blocks (blocks : List Block) (max_blocks : Nat) : List Simplified :=
  (blocks.take max_blocks).map simplify_block_content

/-- The fixed keyword list of `generate_page_summary`. -/
def keywords : List Str :=
  (["important", "key", "main", "critical", "essential", "conclusion"].map String.toList)

/-- `any(keyword in paragraph.lower() for keyword in keywords)`:
substring test against the lowercased paragraph. -/
def containsKeyword (paragraph : Str) : Bool :=
  keywords.any fun kw => decide (kw <:+: paragraph.map Char.toLower)

/-- Python's `full_text.split('\n')`: split a string at every newline;
the empty string splits to `['']`. -/
def splitNl : Str → List Str
  | [] => [[]]
  | c :: rest =>
    if c = nl then [] :: splitNl rest
    else
      match splitNl rest with
      | [] => [[c]]
      | h :: t => (c :: h) :: t

/-- The keyword loop of `generate_page_summary` (lines 325–332) over
`paragraphs[1:]`: break once `len(summary) >= max_length`; append
`"\n" + paragraph` when the paragraph contains a keyword and
`len(summary) + len(paragraph) + 1 <= max_length`. -/
def keywordPass (max_length : Nat) : List Str → Str → Str
  | [], summary => summary
  | paragraph :: rest, summary =>
    if max_length ≤ summary.length then summary
    else
      keywordPass max_length rest
        (if containsKeyword paragraph ∧ summary.length + paragraph.length + 1 ≤ max_length
         then summary ++ nl :: paragraph else summary)

/-- The final `while` loop of `generate_page_summary` (lines 335–339)
over `paragraphs[1:]`: stop at the first paragraph with
`len(summary) + len(paragraph) + 1 > max_length`; append the paragraph
unless `paragraph in summary` (Python substring containment). -/
def secondPass (max_length : Nat) : List Str → Str → Str
  | [], summary => summary
  | paragraph :: rest, summary =>
    if summary.length + paragraph.length + 1 ≤ max_length then
      secondPass max_length rest
        (if paragraph <:+: summary then summary else summary ++ nl :: paragraph)
    else summary

/-- Lines 307–313 of `generate_page_summary`: the contents of the
blocks with truthy (non-empty) content, joined with `"\n"`. -/
def full_text (blocks : List Simplified) : Str :=
  List.intercalate [nl] ((blocks.filter fun b => !b.content.isEmpty).map Simplified.content)

/-- `NotionManager.generate_page_summary`, from the flattened blocks of
the page: return the newline-joined full text when it fits in
`max_length`; otherwise start from `paragraphs[0]` and run the keyword
pass then the fill pass over `paragraphs[1:]`. -/
def generate_page_summary (blocks : List Simplified) (max_length : Nat) : Str :=
  let fullText := full_text blocks
  if fullText.length ≤ max_length then fullText
  else
    let paragraphs := splitNl fullText
    let summary := paragraphs.headD []
    secondPass max_length paragraphs.tail (keywordPass max_length paragraphs.tail summary)

/-- Occurrence count of a piece among a list of pieces (used to state
how often a paragraph appears among the newline-separated pieces of a
summary). -/
def cnt (p : Str) : List Str → Nat
  | [] => 0
  | q :: rest => (if p = q then 1 else 0) + cnt p rest

/-- C1 counterexample: a cache file with malformed JSON makes
`get_cached_page` raise `json.JSONDecodeError` (there is no
`try/except` around `json.load`), rather than return a cache miss. -/
theorem get_cached_page_malformed_raises :
    get_cached_page (fun _ => some CacheFile.malformed) 0 "k" =
      Except.error PyExc.jsonDecodeError := rfl

/-- C1 (amended): a missing cache file never raises and reads as a
cache miss, but a file with malformed JSON raises a JSON decode error
that propagates — it is not collapsed to a miss. -/
theorem cache_read_missing_vs_malformed (fs : Store) (now : Nat) (k : String) :
    (fs k = none → get_cached_page fs now k = .ok none) ∧
    (fs k = some .malformed → get_cached_page fs now k = .error .jsonDecodeError) := by
  constructor <;> intro h <;> simp [get_cached_page, h]

/-- C1 witness: both conjuncts at concrete stores. -/
theorem cache_read_missing_vs_malformed_witness :
    get_cached_page (fun _ => none) 0 "k" = .ok none ∧
    get_cached_page (fun _ => some .malformed) 0 "k" = .error .jsonDecodeError :=
  ⟨(cache_read_missing_vs_malformed (fun _ => none) 0 "k").1 rfl,
   (cache_read_missing_vs_malformed (fun _ => some .malformed) 0 "k").2 rfl⟩

/-- C2: TTL semantics of the cache. A `get_cached_page` at time `now2`
after `update_cache` at time `now` returns the cached value while less
than 24 hours have elapsed, and returns absent once at least 24 hours
have elapsed, even though the file is intact. -/
theorem cache_ttl (fs : Store) (k : String) (v : JsonVal) (now now2 : Nat) :
    (now2 - now < ttl →
      get_cached_page (update_cache fs now k v) now2 k = .ok (some v)) ∧
    (ttl ≤ now2 - now →
      get_cached_page (update_cache fs now k v) now2 k = .ok none) := by
  constructor <;> intro h
  · simp [get_cached_page, update_cache, h]
  · simp [get_cached_page, update_cache, Nat.not_lt.mpr h]

/-- C2 witness: put at time 0; get at time 0 hits, get at 24h misses. -/
theorem cache_ttl_witness :
    get_cached_page (update_cache (fun _ => none) 0 "k" .null) 0 "k" = .ok (some .null) ∧
    get_cached_page (update_cache (fun _ => none) 0 "k" .null) 86400 "k" = .ok none :=
  ⟨(cache_ttl (fun _ => none) "k" .null 0 0).1 (by decide),
   (cache_ttl (fun _ => none) "k" .null 0 86400).2 (by decide)⟩

/-- C10: a valid cache file without the `cached_at` key is not an
error: the read substitutes the `'2000-01-01'` default, so whenever
`now` is at least 24 hours past that epoch the entry reads as expired
and `get_cached_page` returns absent. -/
theorem missing_cached_at_reads_expired (fs : Store) (k : String) (v : JsonVal)
    (now : Nat) (hfile : fs k = some (.valid v none))
    (hnow : epoch2000 + ttl ≤ now) :
    get_cached_page fs now k = .ok none := by
  simp only [get_cached_page, hfile, Option.getD]
  rw [if_neg (by omega)]

/-- C10 witness: a `cached_at`-less file read at the first instant 24
hours past 2000-01-01. -/
theorem missing_cached_at_reads_expired_witness :
    get_cached_page (fun _ => some (.valid .null none)) 946771200 "k" = .ok none :=
  missing_cached_at_reads_expired (fun _ => some (.valid .null none)) "k" .null
    946771200 rfl (by decide)

/-- C3 counterexample: a fresh, intact cache entry holding an empty
blocks list is *not* returned by the get-or-fetch path — Python
truthiness treats it as a miss, so the fetch function runs and its
result (here the sentinel `7`) is returned and written back over the
cached empty list. -/
theorem getOrFetch_empty_cached_invokes_fetch :
    (get_block_children (update_cache (fun _ => none) 0 "b_children" (JsonVal.arr []))
        0 "b" false (.ok (JsonVal.num 7))).1 = .ok (JsonVal.num 7) ∧
    (get_block_children (update_cache (fun _ => none) 0 "b_children" (JsonVal.arr []))
        0 "b" false (.ok (JsonVal.num 7))).2 "b_children" =
      some (.valid (JsonVal.num 7) (some 0)) := by
  constructor <;> rfl

/-- C3 (amended): with `force_refresh = false` and a valid unexpired
cache entry whose value is truthy (non-empty), `get_page` returns the
cached value with the store unchanged, independent of the fetch
function; an empty cached document instead falls through to the fetch. -/
theorem getOrFetch_truthy_hit_no_fetch (fs : Store) (now : Nat) (k : String)
    (v : JsonVal) (fetchFn : Except PyExc JsonVal)
    (hget : get_cached_page fs now k = .ok (some v)) (htruthy : truthy v = true) :
    get_page fs now k false fetchFn = (.ok v, fs) := by
  simp [get_page, get_page_content, hget, htruthy]

/-- C3 witness: a cached truthy value is returned even though the fetch
function would raise. -/
theorem getOrFetch_truthy_hit_no_fetch_witness :
    get_page (fun _ => some (.valid (JsonVal.num 1) (some 0))) 0 "k" false
        (.error .httpError) =
      (.ok (JsonVal.num 1), fun _ => some (.valid (JsonVal.num 1) (some 0))) :=
  getOrFetch_truthy_hit_no_fetch (fun _ => some (.valid (JsonVal.num 1) (some 0)))
    0 "k" (JsonVal.num 1) (.error .httpError) rfl rfl

/-- C7: when the modelled fetch raises during `get_page` or
`get_block_children` on a cache miss (which includes every forced
refresh), the exception propagates unchanged and the store is exactly
the one from before the call. -/
theorem fetch_failure_atomicity (fs : Store) (now : Nat) (k : String)
    (force : Bool) (e : PyExc) :
    (get_page_content fs now k force = .ok none →
      get_page fs now k force (.error e) = (.error e, fs)) ∧
    (get_page_content fs now (k ++ "_children") force = .ok none →
      get_block_children fs now k force (.error e) = (.error e, fs)) := by
  constructor <;> intro h
  · simp [get_page, h]
  · simp [get_block_children, h]

/-- C7 witness: a failing fetch on an empty store propagates
`httpError` and leaves the store empty, for both composites. -/
theorem fetch_failure_atomicity_witness :
    get_page (fun _ => none) 0 "k" false (.error .httpError) =
      (.error .httpError, fun _ => none) ∧
    get_block_children (fun _ => none) 0 "k" false (.error .httpError) =
      (.error .httpError, fun _ => none) :=
  ⟨(fetch_failure_atomicity (fun _ => none) 0 "k" false .httpError).1 rfl,
   (fetch_failure_atomicity (fun _ => none) 0 "k" false .httpError).2 rfl⟩

/-- C8: with `force_refresh = true`, `get_page` never consults the
cache: its outcome is exactly the fetch outcome, on success the key's
file is overwritten with the fetched value and `cached_at = now`, and
on fetch failure the store is unchanged — regardless of any still-valid
entry in `fs`. -/
theorem force_refresh_bypasses_cache (fs : Store) (now : Nat) (k : String)
    (fetchFn : Except PyExc JsonVal) (v : JsonVal) :
    get_page fs now k true fetchFn =
      (fetchFn, match fetchFn with
        | .ok w => update_cache fs now k w
        | .error _ => fs) ∧
    update_cache fs now k v k = some (.valid v (some now)) := by
  constructor
  · cases fetchFn <;> simp [get_page, get_page_content]
  · simp [update_cache]

/-- C4 counterexample: the flattening loop caps its output at
`max_blocks` (default 50), so 51 input blocks yield 50 records, not 51. -/
theorem flatten_caps_at_max_blocks :
    (flatten_blocks (List.replicate 51 (Block.other "u")) 50).length = 50 ∧
    (flatten_blocks (List.replicate 51 (Block.other "u")) 50).length ≠ 51 := by
  constructor <;> simp [flatten_blocks]

/-- C4 (amended): for at most `max_blocks` input blocks the flattening
loop returns exactly one record per block, in input order (it is the
map of `simplify_block_content`); an unrecognized kind still yields a
record, with `content = ""`. Beyond `max_blocks` blocks the loop stops. -/
theorem flatten_shape_upto_cap (blocks : List Block) (max_blocks : Nat)
    (ty : String) (h : blocks.length ≤ max_blocks) :
    flatten_blocks blocks max_blocks = blocks.map simplify_block_content ∧
    (flatten_blocks blocks max_blocks).length = blocks.length ∧
    (simplify_block_content (Block.other ty)).content = [] := by
  have ht : blocks.take max_blocks = blocks := List.take_of_length_le h
  exact ⟨by simp [flatten_blocks, ht], by simp [flatten_blocks, ht], rfl⟩

/-- C4 witness: two blocks (one unrecognized) under the default cap. -/
theorem flatten_shape_upto_cap_witness :
    flatten_blocks [Block.other "u", Block.paragraph [⟨"Hi".toList⟩]] 50 =
      [Block.other "u", Block.paragraph [⟨"Hi".toList⟩]].map simplify_block_content ∧
    (flatten_blocks [Block.other "u", Block.paragraph [⟨"Hi".toList⟩]] 50).length = 2 ∧
    (simplify_block_content (Block.other "u")).content = [] :=
  flatten_shape_upto_cap [Block.other "u", Block.paragraph [⟨"Hi".toList⟩]] 50 "u"
    (by decide)

/-- C6: when the newline-joined non-empty contents fit within
`max_length`, `generate_page_summary` returns exactly that joined full
text. -/
theorem short_document_identity (blocks : List Simplified) (max_length : Nat)
    (h : (full_text blocks).length ≤ max_length) :
    generate_page_summary blocks max_length = full_text blocks := by
  simp [generate_page_summary, h]

/-- C6 witness: contents `["Hello", "World"]` with budget 500 give
`"Hello\nWorld"`. -/
theorem short_document_identity_witness :
    generate_page_summary [⟨"paragraph", "Hello".toList, none, none⟩,
        ⟨"paragraph", "World".toList, none, none⟩] 500 = "Hello\nWorld".toList :=
  (short_document_identity [⟨"paragraph", "Hello".toList, none, none⟩,
    ⟨"paragraph", "World".toList, none, none⟩] 500 (by decide)).trans (by decide)

/-- `splitNl` never returns the empty list (Python `split` always
yields at least one piece). -/
theorem splitNl_ne_nil (s : Str) : splitNl s ≠ [] := by
  induction s with
  | nil => simp [splitNl]
  | cons c rest ih =>
    simp only [splitNl]
    split
    · simp
    · split <;> simp

/-- Pieces produced by `splitNl` contain no newline. -/
theorem nl_not_mem_splitNl (s : Str) : ∀ p ∈ splitNl s, nl ∉ p := by
  induction s with
  | nil =>
    intro p hp
    simp only [splitNl, List.mem_singleton] at hp
    subst hp; simp
  | cons c rest ih =>
    intro p hp
    simp only [splitNl] at hp
    by_cases hc : c = nl
    · rw [if_pos hc] at hp
      rcases List.mem_cons.mp hp with h | h
      · subst h; simp
      · exact ih p h
    · rw [if_neg hc] at hp
      rcases hsp : splitNl rest with _ | ⟨h0, t⟩
      · exact absurd hsp (splitNl_ne_nil rest)
      · rw [hsp] at hp
        rcases List.mem_cons.mp hp with h | h
        · subst h
          intro hmem
          rcases List.mem_cons.mp hmem with h' | h'
          · exact hc h'.symm
          · exact ih h0 (by rw [hsp]; exact List.mem_cons_self _ _) h'
        · exact ih p (by rw [hsp]; exact List.mem_cons_of_mem _ h)

/-- A newline-free string splits to the single piece `[s]`. -/
theorem splitNl_no_nl (s : Str) (h : nl ∉ s) : splitNl s = [s] := by
  induction s with
  | nil => rfl
  | cons c rest ih =>
    have hc : ¬(c = nl) := fun hcc => h (hcc ▸ List.mem_cons_self _ _)
    have hr : nl ∉ rest := fun hm => h (List.mem_cons_of_mem _ hm)
    simp only [splitNl, if_neg hc, ih hr]

/-- Appending `"\n" + p` (with `p` newline-free) appends one piece. -/
theorem splitNl_append (s p : Str) (hp : nl ∉ p) :
    splitNl (s ++ nl :: p) = splitNl s ++ [p] := by
  induction s with
  | nil => simp [splitNl, splitNl_no_nl p hp]
  | cons c rest ih =>
    obtain ⟨h0, t, hst⟩ : ∃ h0 t, splitNl rest = h0 :: t := by
      rcases hsp : splitNl rest with _ | ⟨h0, t⟩
      · exact absurd hsp (splitNl_ne_nil rest)
      · exact ⟨h0, t, rfl⟩
    show splitNl (c :: (rest ++ nl :: p)) = splitNl (c :: rest) ++ [p]
    rw [splitNl, splitNl, ih, hst]
    by_cases hc : c = nl
    · rw [if_pos hc, if_pos hc]
      rfl
    · rw [if_neg hc, if_neg hc]
      rfl

/-- The keyword pass never grows the summary past
`max (initial length) max_length`: every append is guarded by
`len(summary) + len(paragraph) + 1 <= max_length`. -/
theorem keywordPass_length_le (max_length : Nat) (tl : List Str) : ∀ s : Str,
    (keywordPass max_length tl s).length ≤ max s.length max_length := by
  induction tl with
  | nil => intro s; simp only [keywordPass]; exact Nat.le_max_left _ _
  | cons q rest ih =>
    intro s
    simp only [keywordPass]
    split
    · exact Nat.le_max_left _ _
    · split
      next hc =>
        have hstep := ih (s ++ nl :: q)
        simp only [List.length_append, List.length_cons] at hstep
        obtain ⟨-, h2⟩ := hc
        omega
      next hc =>
        have hstep := ih s
        omega

/-- Same bound for the second (fill) pass. -/
theorem secondPass_length_le (max_length : Nat) (tl : List Str) : ∀ s : Str,
    (secondPass max_length tl s).length ≤ max s.length max_length := by
  induction tl with
  | nil => intro s; simp only [secondPass]; exact Nat.le_max_left _ _
  | cons q rest ih =>
    intro s
    simp only [secondPass]
    split
    next hfit =>
      split
      next => exact ih s
      next =>
        have hstep := ih (s ++ nl :: q)
        simp only [List.length_append, List.length_cons] at hstep
        omega
    next => exact Nat.le_max_left _ _

set_option maxRecDepth 8192 in
/-- C5 counterexample: with one 501-character paragraph and
`max_length = 500`, truncation triggers (the full text is longer than
the budget) yet the returned summary is the 501-character first
paragraph, exceeding `max_length`. -/
theorem summary_budget_exceeded_cex :
    500 < (full_text [⟨"paragraph", List.replicate 501 'a', none, none⟩]).length ∧
    500 < (generate_page_summary [⟨"paragraph", List.replicate 501 'a', none, none⟩]
            500).length := by
  constructor <;> decide

/-- C5 (amended): once truncation triggers, the summary length is at
most `max max_length (length of the first paragraph)`: every appended
paragraph is budget-checked against `max_length`, but `paragraphs[0]`
is included unconditionally and alone may exceed the budget. -/
theorem summary_length_bound (blocks : List Simplified) (max_length : Nat)
    (h : max_length < (full_text blocks).length) :
    (generate_page_summary blocks max_length).length ≤
      max max_length ((splitNl (full_text blocks)).headD []).length := by
  simp only [generate_page_summary]
  rw [if_neg (by omega)]
  have h1 := keywordPass_length_le max_length (splitNl (full_text blocks)).tail
      ((splitNl (full_text blocks)).headD [])
  have h2 := secondPass_length_le max_length (splitNl (full_text blocks)).tail
      (keywordPass max_length (splitNl (full_text blocks)).tail
        ((splitNl (full_text blocks)).headD []))
  omega

/-- C5 witness: a 3-character single paragraph against budget 2. -/
theorem summary_length_bound_witness :
    (generate_page_summary [⟨"paragraph", "abc".toList, none, none⟩] 2).length ≤
      max 2 ((splitNl (full_text [⟨"paragraph",
        "abc".toList, none, none⟩])).headD []).length :=
  summary_length_bound [⟨"paragraph", "abc".toList, none, none⟩] 2 (by decide)

/-- The keyword pass only appends: its input is a prefix of its output. -/
theorem keywordPass_extends (max_length : Nat) (tl : List Str) : ∀ s : Str,
    s <+: keywordPass max_length tl s := by
  induction tl with
  | nil => intro s; simp only [keywordPass]; exact List.prefix_rfl
  | cons q rest ih =>
    intro s
    simp only [keywordPass]
    split
    · exact List.prefix_rfl
    · split
      · exact (List.prefix_append s (nl :: q)).trans (ih _)
      · exact ih s

/-- The fill pass only appends: its input is a prefix of its output. -/
theorem secondPass_extends (max_length : Nat) (tl : List Str) : ∀ s : Str,
    s <+: secondPass max_length tl s := by
  induction tl with
  | nil => intro s; simp only [secondPass]; exact List.prefix_rfl
  | cons q rest ih =>
    intro s
    simp only [secondPass]
    split
    · split
      · exact ih s
      · exact (List.prefix_append s (nl :: q)).trans (ih _)
    · exact List.prefix_rfl

/-- Substring containment survives appending on the right. -/
theorem infix_append_right {p s : Str} (h : p <:+: s) (t : Str) : p <:+: s ++ t := by
  obtain ⟨u, v, huv⟩ := h
  exact ⟨u, v ++ t, by rw [← huv]; simp⟩

/-- The paragraph just appended after a newline is a substring of the
extended summary. -/
theorem infix_append_self (s p : Str) : p <:+: s ++ nl :: p :=
  ⟨s ++ [nl], [], by simp⟩

/-- `cnt` distributes over list append. -/
theorem cnt_append (p : Str) (l₁ l₂ : List Str) :
    cnt p (l₁ ++ l₂) = cnt p l₁ + cnt p l₂ := by
  induction l₁ with
  | nil => simp [cnt]
  | cons q rest ih =>
    show cnt p (q :: (rest ++ l₂)) = cnt p (q :: rest) + cnt p l₂
    simp only [cnt, ih]
    omega

/-- Second pass, suppression: once `p` is a substring of the summary,
the fill pass never appends another copy of `p` — the count of `p`
among the summary's pieces is unchanged. -/
theorem secondPass_cnt_of_contains (max_length : Nat) (p : Str) (tl : List Str) :
    ∀ s : Str, (∀ q ∈ tl, nl ∉ q) → p <:+: s →
    cnt p (splitNl (secondPass max_length tl s)) = cnt p (splitNl s) := by
  induction tl with
  | nil => intro s _ _; simp only [secondPass]
  | cons q rest ih =>
    intro s hfree hinf
    have hq : nl ∉ q := hfree q (List.mem_cons_self _ _)
    have hrest : ∀ r ∈ rest, nl ∉ r := fun r hr => hfree r (List.mem_cons_of_mem _ hr)
    simp only [secondPass]
    split
    · split
      next hqin => exact ih s hrest hinf
      next hqin =>
        have hpq : ¬(p = q) := fun he => hqin (he ▸ hinf)
        rw [ih (s ++ nl :: q) hrest (infix_append_right hinf _)]
        rw [splitNl_append s q hq, cnt_append]
        simp [cnt, hpq]
    · rfl

/-- Second pass, general bound: the count of `p` among the pieces grows
by at most one, and only if `p` occurs among the scanned paragraphs. -/
theorem secondPass_cnt_le (max_length : Nat) (p : Str) (tl : List Str) :
    ∀ s : Str, (∀ q ∈ tl, nl ∉ q) →
    cnt p (splitNl (secondPass max_length tl s)) ≤
      cnt p (splitNl s) + min (cnt p tl) 1 := by
  induction tl with
  | nil => intro s _; simp [secondPass, cnt]
  | cons q rest ih =>
    intro s hfree
    have hq : nl ∉ q := hfree q (List.mem_cons_self _ _)
    have hrest : ∀ r ∈ rest, nl ∉ r := fun r hr => hfree r (List.mem_cons_of_mem _ hr)
    simp only [secondPass]
    split
    · split
      next hqin =>
        have hIH := ih s hrest
        have hc : cnt p (q :: rest) = (if p = q then 1 else 0) + cnt p rest := rfl
        rw [hc]
        by_cases hpq : p = q
        · rw [if_pos hpq]; omega
        · rw [if_neg hpq]; omega
      next hqin =>
        by_cases hpq : p = q
        · subst hpq
          rw [secondPass_cnt_of_contains max_length p rest (s ++ nl :: p) hrest
            (infix_append_self s p)]
          rw [splitNl_append s p hq, cnt_append]
          simp [cnt]
        · have hIH := ih (s ++ nl :: q) hrest
          rw [splitNl_append s q hq, cnt_append] at hIH
          simp only [cnt, hpq, ite_false, reduceIte] at hIH ⊢
          simp [cnt, hpq] at hIH ⊢
          omega
    · have : cnt p (q :: rest) = (if p = q then 1 else 0) + cnt p rest := rfl
      omega

/-- Keyword pass: the count of `p` among the pieces grows by at most
the number of occurrences of `p` in the scanned paragraphs, and if it
grows at all then `p` is a substring of the resulting summary. -/
theorem keywordPass_cnt (max_length : Nat) (p : Str) (tl : List Str) :
    ∀ s : Str, (∀ q ∈ tl, nl ∉ q) →
    cnt p (splitNl (keywordPass max_length tl s)) ≤ cnt p (splitNl s) + cnt p tl ∧
    (cnt p (splitNl (keywordPass max_length tl s)) ≤ cnt p (splitNl s) ∨
      p <:+: keywordPass max_length tl s) := by
  induction tl with
  | nil => intro s _; exact ⟨by simp [keywordPass, cnt], Or.inl (by simp [keywordPass])⟩
  | cons q rest ih =>
    intro s hfree
    have hq : nl ∉ q := hfree q (List.mem_cons_self _ _)
    have hrest : ∀ r ∈ rest, nl ∉ r := fun r hr => hfree r (List.mem_cons_of_mem _ hr)
    simp only [keywordPass]
    split
    · refine ⟨Nat.le_add_right _ _, Or.inl (le_refl _)⟩
    · split
      next hcond =>
        have hK := ih (s ++ nl :: q) hrest
        rw [splitNl_append s q hq, cnt_append] at hK
        by_cases hpq : p = q
        · subst hpq
          refine ⟨?_, Or.inr ?_⟩
          · have h1 := hK.1
            simp only [cnt] at h1 ⊢
            simp at h1 ⊢
            omega
          · exact (infix_append_self s p).trans (keywordPass_extends _ _ _).isInfix
        · refine ⟨?_, ?_⟩
          · have h1 := hK.1
            simp only [cnt, hpq] at h1 ⊢
            simp [hpq] at h1 ⊢
            omega
          · rcases hK.2 with hle | hinf
            · left
              simp [cnt, hpq] at hle
              omega
            · right; exact hinf
      next hcond =>
        have hK := ih s hrest
        refine ⟨?_, ?_⟩
        · have h1 := hK.1
          have : cnt p (q :: rest) = (if p = q then 1 else 0) + cnt p rest := rfl
          omega
        · exact hK.2

/-- C9 counterexample: `"main pt"` is keyword-matched (contains
`"main"`), occurs twice among the paragraphs, is appended twice by the
keyword pass (which has no duplicate check), and is re-encountered and
skipped by the second pass — yet it appears twice among the summary's
newline-separated pieces, not at most once. -/
theorem keyword_duplicate_appears_twice :
    containsKeyword "main pt".toList = true ∧
    cnt "main pt".toList (splitNl (generate_page_summary
      [⟨"paragraph", "intro".toList, none, none⟩,
       ⟨"paragraph", "main pt".toList, none, none⟩,
       ⟨"paragraph", "main pt".toList, none, none⟩,
       ⟨"paragraph", "xxxxxxxxxxxxxxxxxxxx".toList, none, none⟩] 30)) = 2 := by
  constructor <;> decide

/-- C9 (amended): the second pass never re-appends a paragraph that is
already a substring of the summary (the suppression test is exact
string containment, not semantic), so any paragraph occurring at most
once among the full text's paragraphs appears at most once among the
summary's pieces; only a paragraph duplicated in the input (appended
twice by the keyword pass itself) can appear more than once. -/
theorem unique_paragraph_at_most_once (blocks : List Simplified) (max_length : Nat)
    (p : Str) (h : cnt p (splitNl (full_text blocks)) ≤ 1) :
    cnt p (splitNl (generate_page_summary blocks max_length)) ≤ 1 := by
  by_cases hlen : (full_text blocks).length ≤ max_length
  · simp only [generate_page_summary]
    rw [if_pos hlen]
    exact h
  · simp only [generate_page_summary]
    rw [if_neg hlen]
    obtain ⟨hd, tl, hcons⟩ : ∃ hd tl, splitNl (full_text blocks) = hd :: tl := by
      rcases he : splitNl (full_text blocks) with _ | ⟨hd, tl⟩
      · exact absurd he (splitNl_ne_nil _)
      · exact ⟨hd, tl, rfl⟩
    rw [hcons, List.headD_cons, List.tail_cons]
    have hfree : ∀ q ∈ tl, nl ∉ q := fun q hq =>
      nl_not_mem_splitNl (full_text blocks) q (by rw [hcons]; exact List.mem_cons_of_mem _ hq)
    have hhd : nl ∉ hd :=
      nl_not_mem_splitNl (full_text blocks) hd (by rw [hcons]; exact List.mem_cons_self _ _)
    have hsh : splitNl hd = [hd] := splitNl_no_nl hd hhd
    have hK := keywordPass_cnt max_length p tl hd hfree
    rw [hsh] at hK
    rw [hcons] at h
    have hh : cnt p (hd :: tl) = (if p = hd then 1 else 0) + cnt p tl := rfl
    have hone : cnt p [hd] = (if p = hd then 1 else 0) + 0 := rfl
    rcases hK.2 with hle | hinf
    · have hS := secondPass_cnt_le max_length p tl (keywordPass max_length tl hd) hfree
      by_cases hph : p = hd
      · rw [hh, if_pos hph] at h
        rw [hone, if_pos hph] at hle
        omega
      · rw [hh, if_neg hph] at h
        rw [hone, if_neg hph] at hle
        omega
    · have hS := secondPass_cnt_of_contains max_length p tl (keywordPass max_length tl hd)
        hfree hinf
      rw [hS]
      have h1 := hK.1
      by_cases hph : p = hd
      · rw [hh, if_pos hph] at h
        rw [hone, if_pos hph] at h1
        omega
      · rw [hh, if_neg hph] at h
        rw [hone, if_neg hph] at h1
        omega

/-- C9 witness: `"Main point"` occurs once among the paragraphs of a
truncated document and appears exactly once (hence at most once) in
the summary. -/
theorem unique_paragraph_at_most_once_witness :
    cnt "Main point".toList (splitNl (full_text
      [⟨"paragraph", "Main point".toList, none, none⟩,
       ⟨"paragraph", "x".toList, none, none⟩])) ≤ 1 ∧
    cnt "Main point".toList (splitNl (generate_page_summary
      [⟨"paragraph", "Main point".toList, none, none⟩,
       ⟨"paragraph", "x".toList, none, none⟩] 3)) ≤ 1 :=
  ⟨by decide,
   unique_paragraph_at_most_once
     [⟨"paragraph", "Main point".toList, none, none⟩,
      ⟨"paragraph", "x".toList, none, none⟩] 3 "Main point".toList (by decide)⟩
